import Mathlib

/-!
Formal model of the NumS execution substrate: the block-operation kernel
(`nums/core/kernel/numpy_kernel.py`) and the execution backends
(`nums/core/systems/systems.py`).

Numeric block data is modelled with exact arithmetic (`ℚ` for array
elements, `ℕ`/`ℤ` for indices and counters).  Python sequences become
`List`s, dictionaries become association lists preserving insertion
order, and in-place numpy mutation is modelled by an explicit heap of
arrays addressed by natural numbers.
-/

/- ----------------------------------------------------------------- -/
/- Parallel RNG scheme (`numpy_kernel.RNG`).                          -/
/- ----------------------------------------------------------------- -/

/-- The process-wide RNG state: a 128-bit `seed` (modelled as `ℕ`) and the
monotonically increasing `jump_index`, as in `RNG.__init__`. -/
structure RNG where
  seed : ℕ
  jump_index : ℕ
deriving Repr, DecidableEq

/-- Model of `RNG.new_block_rng_params`: reads `(seed, jump_index)`, increments
`jump_index` by one, and returns the pair read before the increment.
Mirrors `numpy_kernel.py` lines 79-82. -/
def RNG.new_block_rng_params (s : RNG) : (ℕ × ℕ) × RNG :=
  ((s.seed, s.jump_index), { s with jump_index := s.jump_index + 1 })

/-- The trace of `k` consecutive calls to `new_block_rng_params`:
the list of returned pairs together with the final state. -/
def RNG.callSeq : ℕ → RNG → List (ℕ × ℕ) × RNG
  | 0, s => ([], s)
  | k + 1, s =>
    let r := s.new_block_rng_params
    let rest := RNG.callSeq k r.2
    (r.1 :: rest.1, rest.2)

theorem RNG.callSeq_fst (k : ℕ) (s : RNG) :
    (RNG.callSeq k s).1 = (List.range k).map (fun i => (s.seed, s.jump_index + i)) := by
  induction k generalizing s with
  | zero => simp [RNG.callSeq]
  | succ k ih =>
    have h1 : (RNG.callSeq (k + 1) s).1 =
        (s.seed, s.jump_index) :: (RNG.callSeq k ⟨s.seed, s.jump_index + 1⟩).1 := rfl
    rw [h1, ih, List.range_succ_eq_map, List.map_cons, List.map_map]
    simp only [List.cons.injEq]
    refine ⟨by simp, ?_⟩
    apply List.map_congr_left
    intro i _
    simp [Function.comp]
    omega

/-- C3: `new_block_rng_params` returns the pre-increment `(seed, jump_index)`
pair, leaves `seed` unchanged, increments `jump_index` by exactly one, and a
sequence of `k` consecutive calls returns `k` pairs with identical seed and
strictly increasing (hence pairwise distinct) jump indices. -/
theorem rng_new_block_params_spec (s : RNG) (k : ℕ) :
    s.new_block_rng_params.1 = (s.seed, s.jump_index) ∧
    s.new_block_rng_params.2.seed = s.seed ∧
    s.new_block_rng_params.2.jump_index = s.jump_index + 1 ∧
    (RNG.callSeq k s).1 = (List.range k).map (fun i => (s.seed, s.jump_index + i)) ∧
    (∀ p ∈ (RNG.callSeq k s).1, p.1 = s.seed) ∧
    List.Pairwise (fun p q => p.2 < q.2) (RNG.callSeq k s).1 ∧
    List.Pairwise (fun p q => p ≠ q) (RNG.callSeq k s).1 := by
  have htrace := RNG.callSeq_fst k s
  have hpw : List.Pairwise (fun p q : ℕ × ℕ => p.2 < q.2) (RNG.callSeq k s).1 := by
    rw [htrace, List.pairwise_map]
    have : List.Pairwise (· < ·) (List.range k) := List.pairwise_lt_range k
    exact this.imp (by intro a b h; simpa using h)
  refine ⟨rfl, rfl, rfl, htrace, ?_, hpw, ?_⟩
  · intro p hp
    rw [htrace] at hp
    obtain ⟨i, _, rfl⟩ := List.mem_map.mp hp
    rfl
  · exact hpw.imp (by intro a b h; exact fun hEq => absurd (congrArg Prod.snd hEq) (Nat.ne_of_lt h))

/- ----------------------------------------------------------------- -/
/- `pivot_partition` (`numpy_kernel.py` lines 392-411).               -/
/- ----------------------------------------------------------------- -/

/-- The six comparison operator names accepted by `pivot_partition`
(the `ops` dict at lines 401-408). -/
inductive CompOp
  | gt
  | lt
  | ge
  | le
  | eq
  | ne
deriving Repr, DecidableEq

/-- Semantics of the `operator` module functions used in the `ops` dict. -/
def CompOp.apply : CompOp → ℚ → ℚ → Bool
  | .gt, a, b => decide (a > b)
  | .lt, a, b => decide (a < b)
  | .ge, a, b => decide (a ≥ b)
  | .le, a, b => decide (a ≤ b)
  | .eq, a, b => decide (a = b)
  | .ne, a, b => decide (a ≠ b)

/-- Model of `KernelCls.pivot_partition`: empty input returns `(0, arr)`; otherwise the
boolean-mask selection `arr[ops[op](arr, pivot)]` keeps, in order and with
multiplicity, the elements satisfying the comparison, and the returned count
is the selection's size.  Mirrors `numpy_kernel.py` lines 392-411. -/
def pivot_partition (arr : List ℚ) (pivot : ℚ) (op : CompOp) : ℕ × List ℚ :=
  if arr.length = 0 then (0, arr)
  else
    let comp := arr.filter (fun e => op.apply e pivot)
    (comp.length, comp)

/-- C4: an element of `arr` appears in the filtered output of
`pivot_partition` iff its comparison against the pivot holds; elements are
kept with multiplicity and in original order (the output is a sublist and
elementwise counts match the filter); the returned count equals the output's
length; and empty input returns `(0, arr)` unchanged. -/
theorem pivot_partition_spec (arr : List ℚ) (p : ℚ) (op : CompOp) :
    (∀ e : ℚ, e ∈ (pivot_partition arr p op).2 ↔ e ∈ arr ∧ op.apply e p = true) ∧
    (∀ e : ℚ, (pivot_partition arr p op).2.count e =
        if op.apply e p then arr.count e else 0) ∧
    (pivot_partition arr p op).2.Sublist arr ∧
    (pivot_partition arr p op).1 = (pivot_partition arr p op).2.length ∧
    (arr = [] → pivot_partition arr p op = (0, arr)) := by
  by_cases h : arr.length = 0
  · have harr : arr = [] := List.length_eq_zero.mp h
    subst harr
    simp [pivot_partition]
  · refine ⟨?_, ?_, ?_, ?_, ?_⟩
    · intro e
      simp [pivot_partition, h, List.mem_filter]
    · intro e
      simp only [pivot_partition, h, if_false]
      by_cases he : CompOp.apply op e p
      · rw [if_pos he]
        exact List.count_filter (by simpa using he)
      · rw [if_neg he, List.count_eq_zero]
        intro hmem
        exact he (List.mem_filter.mp hmem).2
    · simp only [pivot_partition, h, if_neg h]
      exact List.filter_sublist arr
    · simp [pivot_partition, h]
    · intro harr
      subst harr
      simp at h

/- ----------------------------------------------------------------- -/
/- N-D blocks and `reduce_axis` (`numpy_kernel.py` lines 293-312).    -/
/- ----------------------------------------------------------------- -/

/-- An N-D numpy block with exact (`ℚ`) element arithmetic: a shape list and
a total data map from multi-indices (only indices bounded by `shape` are
meaningful; the contraction/sum definitions below only ever read those). -/
structure NdArray where
  shape : List ℕ
  data : List ℕ → ℚ

/-- numpy `arr.T`: reverses the axes; the element of the transpose at `idx`
is the element of `arr` at the reversed index. -/
def NdArray.npT (a : NdArray) : NdArray :=
  ⟨a.shape.reverse, fun idx => a.data idx.reverse⟩

/-- Model of `np.sum(arr, axis=k, keepdims=False)`: drops axis `k` and sums over it. -/
def npSumAxis (a : NdArray) (k : ℕ) : NdArray :=
  ⟨a.shape.eraseIdx k,
   fun idx => ∑ j ∈ Finset.range (a.shape.getD k 0), a.data (idx.insertIdx k j)⟩

/-- Model of `np.ones(m)`: 1-D length-`m` array of ones. -/
def npOnes (m : ℕ) : NdArray := ⟨[m], fun _ => 1⟩

/-- Model of `np.matmul(v, a)` for 1-D `v` against 2-D `a` (vector–matrix product):
shape `a.shape.drop 1`, entry `[j] ↦ ∑ i, v[i] * a[i, j]`. -/
def npMatmulVecMat (v a : NdArray) : NdArray :=
  ⟨a.shape.drop 1,
   fun idx => ∑ i ∈ Finset.range (a.shape.getD 0 0), v.data [i] * a.data (i :: idx)⟩

/-- Model of `np.matmul(a, v)` for 2-D `a` against 1-D `v` (matrix–vector product):
shape `a.shape.take 1`, entry `[i] ↦ ∑ j, a[i, j] * v[j]`. -/
def npMatmulMatVec (a v : NdArray) : NdArray :=
  ⟨a.shape.take 1,
   fun idx => ∑ j ∈ Finset.range (a.shape.getD 1 0), a.data (idx.insertIdx 1 j) * v.data [j]⟩

/-- Model of `np.tensordot(v, a, axes=(0, k))` for 1-D `v`: contracts `v` against axis
`k` of `a`; the result's indices are the remaining axes of `a` in order. -/
def npTensordotVec (v a : NdArray) (k : ℕ) : NdArray :=
  ⟨a.shape.eraseIdx k,
   fun idx => ∑ j ∈ Finset.range (a.shape.getD k 0), v.data [j] * a.data (idx.insertIdx k j)⟩

/-- The branch structure of `KernelCls.reduce_axis` after the transpose flag
has been applied, specialised to `op_name = "sum"`, `keepdims = False` and a
non-`None` axis (the claim's configuration): when `arr.shape[axis] > 1` the
un-keepdims sum is rewritten as `np.matmul(np.ones(arr.shape[0]), arr)` /
`np.matmul(arr, np.ones(arr.shape[1]))` in the 2-D case and as
`np.tensordot(np.ones(arr.shape[axis]), arr, axes=(0, axis))` otherwise;
else the generic reduction `np.sum(arr, axis=axis, keepdims=False)` runs. -/
def reduce_axis_sum_body (a : NdArray) (axis : ℕ) : NdArray :=
  if 1 < a.shape.getD axis 0 then
    if a.shape.length = 2 then
      if axis = 0 then npMatmulVecMat (npOnes (a.shape.getD 0 0)) a
      else npMatmulMatVec a (npOnes (a.shape.getD 1 0))
    else npTensordotVec (npOnes (a.shape.getD axis 0)) a axis
  else npSumAxis a axis

/-- Model of `KernelCls.reduce_axis` for `op_name = "sum"`, `keepdims = False`:
the transposed flag transposes the block first (line 295-296). -/
def reduce_axis_sum (arr : NdArray) (axis : ℕ) (transposed : Bool) : NdArray :=
  reduce_axis_sum_body (if transposed then arr.npT else arr) axis

theorem eraseIdx_zero_eq_drop_one {α : Type} (l : List α) : l.eraseIdx 0 = l.drop 1 := by
  cases l <;> rfl

theorem reduce_axis_sum_body_eq (a : NdArray) (axis : ℕ)
    (hax : axis < a.shape.length) :
    reduce_axis_sum_body a axis = npSumAxis a axis := by
  unfold reduce_axis_sum_body
  by_cases h1 : 1 < a.shape.getD axis 0
  · rw [if_pos h1]
    by_cases h2 : a.shape.length = 2
    · rw [if_pos h2]
      obtain ⟨x, y, hxy⟩ := List.length_eq_two.mp h2
      by_cases h0 : axis = 0
      · subst h0
        rw [if_pos rfl]
        simp only [npMatmulVecMat, npOnes, npSumAxis, NdArray.mk.injEq]
        refine ⟨(eraseIdx_zero_eq_drop_one a.shape).symm, ?_⟩
        funext idx
        exact Finset.sum_congr rfl (fun i _ => by rw [one_mul, List.insertIdx_zero])
      · have hax1 : axis = 1 := by omega
        subst hax1
        rw [if_neg h0]
        simp only [npMatmulMatVec, npOnes, npSumAxis, NdArray.mk.injEq]
        refine ⟨?_, ?_⟩
        · rw [hxy]; rfl
        · funext idx
          exact Finset.sum_congr rfl (fun j _ => by rw [mul_one])
    · rw [if_neg h2]
      simp only [npTensordotVec, npOnes, npSumAxis, NdArray.mk.injEq, true_and]
      funext idx
      exact Finset.sum_congr rfl (fun j _ => by rw [one_mul])
  · rw [if_neg h1]

/-- C1: for every block, every valid axis and every transposed flag, the
matmul/tensordot-against-ones rewrite performed by
`reduce_axis("sum", arr, axis, keepdims=False, transposed)` returns exactly
`np.sum(arr', axis=axis, keepdims=False)` on the (possibly transposed)
block `arr'` — under the exact-arithmetic model the substitution is not a
semantic change. -/
theorem reduce_axis_sum_eq_npSum (arr : NdArray) (axis : ℕ) (transposed : Bool)
    (hax : axis < (if transposed then arr.npT else arr).shape.length) :
    reduce_axis_sum arr axis transposed =
      npSumAxis (if transposed then arr.npT else arr) axis :=
  reduce_axis_sum_body_eq _ axis hax

/-- Witness for C1 at the concrete 2×3 block with constant data, axis 0,
transposed = false. -/
theorem reduce_axis_sum_eq_npSum_witness :
    0 < (if false then (NdArray.mk [2, 3] fun _ => (1 : ℚ)).npT
          else NdArray.mk [2, 3] fun _ => (1 : ℚ)).shape.length ∧
    reduce_axis_sum (NdArray.mk [2, 3] fun _ => (1 : ℚ)) 0 false =
      npSumAxis (if false then (NdArray.mk [2, 3] fun _ => (1 : ℚ)).npT
          else NdArray.mk [2, 3] fun _ => (1 : ℚ)) 0 :=
  ⟨by decide, reduce_axis_sum_eq_npSum (NdArray.mk [2, 3] fun _ => (1 : ℚ)) 0 false (by decide)⟩

/- ----------------------------------------------------------------- -/
/- Copy-on-write block updates (`numpy_kernel.py` lines 130-154).     -/
/- ----------------------------------------------------------------- -/

/-- The mutable numpy object store: block buffers addressed by allocation
index.  A numpy array value is its buffer's contents; in-place assignment
mutates the buffer at an address, while `.copy()` allocates a fresh one. -/
structure NpHeap where
  arrs : List (List ℚ)

/-- Contents of the buffer at address `a` (empty for unallocated). -/
def NpHeap.read (h : NpHeap) (a : ℕ) : List ℚ := h.arrs.getD a []

/-- In-place element assignment `buffer[a][i] = v`. -/
def NpHeap.writeCell (h : NpHeap) (a i : ℕ) (v : ℚ) : NpHeap :=
  ⟨h.arrs.set a ((h.read a).set i v)⟩

/-- Model of `arr.copy()`: allocates fresh storage holding the same contents;
returns the new heap and the fresh address. -/
def NpHeap.allocCopy (h : NpHeap) (a : ℕ) : NpHeap × ℕ :=
  (⟨h.arrs ++ [h.read a]⟩, h.arrs.length)

/-- Model of `KernelCls.update_block` (lines 130-148): first
`dst_arr = dst_arr.copy()` (line 134), then for each source the selection
assignment `dst_arr[dst_sel] = src_arr[src_sel]` mutates the copy in place.
Sources are heap addresses; each selection is modelled extensionally as the
list of `(src element index, dst element index)` moves it performs.  Returns
the updated heap and the address of the returned (fresh) block. -/
def update_block (h : NpHeap) (dst : ℕ) (srcs : List ℕ)
    (params : List (List (ℕ × ℕ))) : NpHeap × ℕ :=
  let c := h.allocCopy dst
  let h2 := (srcs.zip params).foldl
    (fun st sp =>
      sp.2.foldl (fun st2 q => st2.writeCell c.2 q.2 ((st2.read sp.1).getD q.1 0)) st)
    c.1
  (h2, c.2)

/-- Model of `KernelCls.update_block_by_index` (lines 150-154):
`result = dst_arr.copy()`, then `result[dst_index] = src_arr[src_index]` for
each `(dst_index, src_index)` pair, in place on the copy. -/
def update_block_by_index (h : NpHeap) (dst src : ℕ)
    (index_pairs : List (ℕ × ℕ)) : NpHeap × ℕ :=
  let c := h.allocCopy dst
  let h2 := index_pairs.foldl
    (fun st q => st.writeCell c.2 q.1 ((st.read src).getD q.2 0)) c.1
  (h2, c.2)

theorem NpHeap.read_writeCell_ne (h : NpHeap) (a i : ℕ) (v : ℚ) (d : ℕ)
    (hne : d ≠ a) : (h.writeCell a i v).read d = h.read d := by
  simp only [NpHeap.read, NpHeap.writeCell, List.getD, List.get?_eq_getElem?]
  rw [List.getElem?_set_ne (fun hEq => hne hEq.symm)]

theorem NpHeap.read_allocCopy (h : NpHeap) (a d : ℕ) (hd : d < h.arrs.length) :
    (h.allocCopy a).1.read d = h.read d := by
  simp only [NpHeap.read, NpHeap.allocCopy]
  exact List.getD_append _ _ _ _ hd

theorem foldl_preserves_read {β : Type} (f : NpHeap → β → NpHeap) (d : ℕ)
    (hf : ∀ st b, (f st b).read d = st.read d) :
    ∀ (l : List β) (st : NpHeap), (l.foldl f st).read d = st.read d := by
  intro l
  induction l with
  | nil => intro st; rfl
  | cons b bs ih => intro st; rw [List.foldl_cons, ih, hf]

/-- C2: `update_block` and `update_block_by_index` are copy-on-write: the
returned block lives at a fresh address distinct from `dst`, the call leaves
the original `dst` storage unchanged, and any subsequent in-place mutation of
the returned block leaves the original `dst` storage unchanged. -/
theorem update_block_copy_on_write (h : NpHeap) (dst : ℕ) (srcs : List ℕ)
    (params : List (List (ℕ × ℕ))) (src : ℕ) (pairs : List (ℕ × ℕ))
    (hdst : dst < h.arrs.length) :
    (update_block h dst srcs params).2 ≠ dst ∧
    (update_block h dst srcs params).1.read dst = h.read dst ∧
    (∀ i v, ((update_block h dst srcs params).1.writeCell
        (update_block h dst srcs params).2 i v).read dst = h.read dst) ∧
    (update_block_by_index h dst src pairs).2 ≠ dst ∧
    (update_block_by_index h dst src pairs).1.read dst = h.read dst ∧
    (∀ i v, ((update_block_by_index h dst src pairs).1.writeCell
        (update_block_by_index h dst src pairs).2 i v).read dst = h.read dst) := by
  have hfresh : h.arrs.length ≠ dst := fun hEq => absurd (hEq ▸ hdst) (lt_irrefl _)
  have hdne : dst ≠ h.arrs.length := fun hEq => hfresh hEq.symm
  have hub1 : (update_block h dst srcs params).1.read dst = h.read dst := by
    show ((srcs.zip params).foldl _ (h.allocCopy dst).1).read dst = h.read dst
    rw [foldl_preserves_read _ dst]
    · exact NpHeap.read_allocCopy h dst dst hdst
    · intro st sp
      rw [foldl_preserves_read _ dst]
      intro st2 q
      exact NpHeap.read_writeCell_ne st2 _ _ _ dst hdne
  have hui1 : (update_block_by_index h dst src pairs).1.read dst = h.read dst := by
    show (pairs.foldl _ (h.allocCopy dst).1).read dst = h.read dst
    rw [foldl_preserves_read _ dst]
    · exact NpHeap.read_allocCopy h dst dst hdst
    · intro st q
      exact NpHeap.read_writeCell_ne st _ _ _ dst hdne
  have hub2 : (update_block h dst srcs params).2 = h.arrs.length := rfl
  have hui2 : (update_block_by_index h dst src pairs).2 = h.arrs.length := rfl
  refine ⟨hfresh, hub1, ?_, hfresh, hui1, ?_⟩
  · intro i v
    rw [hub2, NpHeap.read_writeCell_ne _ _ _ _ _ hdne, hub1]
  · intro i v
    rw [hui2, NpHeap.read_writeCell_ne _ _ _ _ _ hdne, hui1]

/-- Witness for C2: a two-buffer heap, destination block 0, one source
(block 1) copying its element 0 to destination element 1. -/
theorem update_block_copy_on_write_witness :
    0 < (NpHeap.mk [[1, 2], [3]]).arrs.length ∧
    (update_block ⟨[[1, 2], [3]]⟩ 0 [1] [[(0, 1)]]).2 ≠ 0 ∧
    (update_block ⟨[[1, 2], [3]]⟩ 0 [1] [[(0, 1)]]).1.read 0 =
      (NpHeap.mk [[1, 2], [3]]).read 0 ∧
    (∀ i v, ((update_block ⟨[[1, 2], [3]]⟩ 0 [1] [[(0, 1)]]).1.writeCell
        (update_block ⟨[[1, 2], [3]]⟩ 0 [1] [[(0, 1)]]).2 i v).read 0 =
      (NpHeap.mk [[1, 2], [3]]).read 0) ∧
    (update_block_by_index ⟨[[1, 2], [3]]⟩ 0 1 [(0, 0)]).2 ≠ 0 ∧
    (update_block_by_index ⟨[[1, 2], [3]]⟩ 0 1 [(0, 0)]).1.read 0 =
      (NpHeap.mk [[1, 2], [3]]).read 0 ∧
    (∀ i v, ((update_block_by_index ⟨[[1, 2], [3]]⟩ 0 1 [(0, 0)]).1.writeCell
        (update_block_by_index ⟨[[1, 2], [3]]⟩ 0 1 [(0, 0)]).2 i v).read 0 =
      (NpHeap.mk [[1, 2], [3]]).read 0) :=
  ⟨by decide, update_block_copy_on_write ⟨[[1, 2], [3]]⟩ 0 [1] [[(0, 1)]] 1 [(0, 0)] (by decide)⟩

/- ----------------------------------------------------------------- -/
/- Argmin/argmax carry (`numpy_kernel.py` lines 491-507).             -/
/- ----------------------------------------------------------------- -/

/-- Minimum of a 1-D block (fold of `min` seeded by the first element;
`0` for the empty block, which `arg_op` never reads). -/
def listMin : List ℚ → ℚ
  | [] => 0
  | x :: xs => xs.foldl min x

/-- Maximum of a 1-D block, symmetric to `listMin`. -/
def listMax : List ℚ → ℚ
  | [] => 0
  | x :: xs => xs.foldl max x

/-- Model of `np.argmin(arr)`: index of the first occurrence of the minimum. -/
def npArgmin (arr : List ℚ) : ℕ := arr.indexOf (listMin arr)

/-- Model of `np.argmax(arr)`: index of the first occurrence of the maximum. -/
def npArgmax (arr : List ℚ) : ℕ := arr.indexOf (listMax arr)

/-- The two operation names `arg_op` accepts (any other raises). -/
inductive ArgOpName
  | argmin
  | argmax
deriving Repr, DecidableEq

/-- Model of `KernelCls.arg_op` (lines 491-507): computes the local optimum's
index and value, offsets the index by `block_slice.start`, and returns the
carried-in `(other_argoptima, other_optima)` pair instead exactly when the
carried optimum is strictly better (`other_optima < arr_min`, resp.
`other_optima > arr_max`).  The first component is an `Option` because the
carried-in argoptimum may be `None`. -/
def arg_op (op : ArgOpName) (arr : List ℚ) (sliceStart : ℕ)
    (other_argoptima : Option ℕ) (other_optima : Option ℚ) : Option ℕ × ℚ :=
  match op with
  | .argmin =>
    let arr_argmin := npArgmin arr
    let arr_min := arr.getD arr_argmin 0
    match other_optima with
    | some v =>
      if v < arr_min then (other_argoptima, v)
      else (some (sliceStart + arr_argmin), arr_min)
    | none => (some (sliceStart + arr_argmin), arr_min)
  | .argmax =>
    let arr_argmax := npArgmax arr
    let arr_max := arr.getD arr_argmax 0
    match other_optima with
    | some v =>
      if v > arr_max then (other_argoptima, v)
      else (some (sliceStart + arr_argmax), arr_max)
    | none => (some (sliceStart + arr_argmax), arr_max)

theorem foldl_min_le_init (xs : List ℚ) (x : ℚ) : xs.foldl min x ≤ x := by
  induction xs generalizing x with
  | nil => simp
  | cons y ys ih => exact le_trans (ih (min x y)) (min_le_left x y)

theorem foldl_min_mem (xs : List ℚ) (x : ℚ) :
    xs.foldl min x = x ∨ xs.foldl min x ∈ xs := by
  induction xs generalizing x with
  | nil => left; rfl
  | cons y ys ih =>
    rcases ih (min x y) with h | h
    · rcases min_choice x y with h1 | h1
      · left; rw [List.foldl_cons, h, h1]
      · right; rw [List.foldl_cons, h, h1]; exact List.mem_cons_self y ys
    · right; exact List.mem_cons_of_mem y h

theorem foldl_min_le_mem (xs : List ℚ) (x : ℚ) : ∀ e ∈ xs, xs.foldl min x ≤ e := by
  induction xs generalizing x with
  | nil => intro e he; cases he
  | cons y ys ih =>
    intro e he
    rcases List.mem_cons.mp he with rfl | he'
    · exact le_trans (foldl_min_le_init ys (min x e)) (min_le_right x e)
    · exact ih (min x y) e he'

theorem foldl_max_init_le (xs : List ℚ) (x : ℚ) : x ≤ xs.foldl max x := by
  induction xs generalizing x with
  | nil => simp
  | cons y ys ih => exact le_trans (le_max_left x y) (ih (max x y))

theorem foldl_max_mem (xs : List ℚ) (x : ℚ) :
    xs.foldl max x = x ∨ xs.foldl max x ∈ xs := by
  induction xs generalizing x with
  | nil => left; rfl
  | cons y ys ih =>
    rcases ih (max x y) with h | h
    · rcases max_choice x y with h1 | h1
      · left; rw [List.foldl_cons, h, h1]
      · right; rw [List.foldl_cons, h, h1]; exact List.mem_cons_self y ys
    · right; exact List.mem_cons_of_mem y h

theorem foldl_max_mem_le (xs : List ℚ) (x : ℚ) : ∀ e ∈ xs, e ≤ xs.foldl max x := by
  induction xs generalizing x with
  | nil => intro e he; cases he
  | cons y ys ih =>
    intro e he
    rcases List.mem_cons.mp he with rfl | he'
    · exact le_trans (le_max_right x e) (foldl_max_init_le ys (max x e))
    · exact ih (max x y) e he'

theorem listMin_mem (arr : List ℚ) (h : arr ≠ []) : listMin arr ∈ arr := by
  match arr with
  | [] => exact absurd rfl h
  | x :: xs =>
    rcases foldl_min_mem xs x with h1 | h1
    · rw [listMin, h1]; exact List.mem_cons_self x xs
    · exact List.mem_cons_of_mem x h1

theorem listMin_le (arr : List ℚ) : ∀ e ∈ arr, listMin arr ≤ e := by
  match arr with
  | [] => intro e he; cases he
  | x :: xs =>
    intro e he
    rcases List.mem_cons.mp he with rfl | he'
    · exact foldl_min_le_init xs e
    · exact foldl_min_le_mem xs x e he'

theorem listMax_mem (arr : List ℚ) (h : arr ≠ []) : listMax arr ∈ arr := by
  match arr with
  | [] => exact absurd rfl h
  | x :: xs =>
    rcases foldl_max_mem xs x with h1 | h1
    · rw [listMax, h1]; exact List.mem_cons_self x xs
    · exact List.mem_cons_of_mem x h1

theorem listMax_ge (arr : List ℚ) : ∀ e ∈ arr, e ≤ listMax arr := by
  match arr with
  | [] => intro e he; cases he
  | x :: xs =>
    intro e he
    rcases List.mem_cons.mp he with rfl | he'
    · exact foldl_max_init_le xs e
    · exact foldl_max_mem_le xs x e he'

theorem getD_ne_of_lt_indexOf (arr : List ℚ) (a : ℚ) :
    ∀ j, j < arr.indexOf a → arr.getD j 0 ≠ a := by
  induction arr with
  | nil => intro j hj; simp [List.indexOf] at hj
  | cons x xs ih =>
    intro j hj
    by_cases hx : x = a
    · subst hx; rw [List.indexOf_cons_self] at hj; omega
    · rw [List.indexOf_cons_ne _ hx] at hj
      cases j with
      | zero => simpa using hx
      | succ j => exact ih j (by omega)

/-- C5 counterexample: with `arr = [5]`, `block_slice.start = 10` and a
carried-in pair `(3, 5)` whose optimum exactly equals the local minimum `5`,
`arg_op("argmin", ...)` returns the local pair `(10, 5)`, not the carried
(first-processed) pair `(3, 5)` — on exact ties the carried pair loses. -/
theorem arg_op_tie_counterexample :
    arg_op .argmin [5] 10 (some 3) (some 5) = (some 10, 5) ∧
    ((some 10 : Option ℕ), (5 : ℚ)) ≠ ((some 3 : Option ℕ), (5 : ℚ)) := by
  refine ⟨by decide, by decide⟩

/-- C5 (amended): for a non-empty 1-D block, `arg_op` returns
`(block_slice.start + i, m)` where `i` is the index of the FIRST local
optimum and `m` the optimum value, unless the carried-in optimum is STRICTLY
better, in which case the carried pair is returned; on an exact tie the local
(currently processed) pair wins, not the carried one. -/
theorem arg_op_amended_spec (arr : List ℚ) (start : ℕ) (oa : Option ℕ)
    (h : arr ≠ []) :
    (npArgmin arr < arr.length ∧
      (∀ e ∈ arr, arr.getD (npArgmin arr) 0 ≤ e) ∧
      (∀ j, j < npArgmin arr → arr.getD (npArgmin arr) 0 < arr.getD j 0)) ∧
    (npArgmax arr < arr.length ∧
      (∀ e ∈ arr, e ≤ arr.getD (npArgmax arr) 0) ∧
      (∀ j, j < npArgmax arr → arr.getD j 0 < arr.getD (npArgmax arr) 0)) ∧
    arg_op .argmin arr start oa none =
      (some (start + npArgmin arr), arr.getD (npArgmin arr) 0) ∧
    (∀ v : ℚ, v < arr.getD (npArgmin arr) 0 →
      arg_op .argmin arr start oa (some v) = (oa, v)) ∧
    (∀ v : ℚ, arr.getD (npArgmin arr) 0 ≤ v →
      arg_op .argmin arr start oa (some v) =
        (some (start + npArgmin arr), arr.getD (npArgmin arr) 0)) ∧
    arg_op .argmax arr start oa none =
      (some (start + npArgmax arr), arr.getD (npArgmax arr) 0) ∧
    (∀ v : ℚ, arr.getD (npArgmax arr) 0 < v →
      arg_op .argmax arr start oa (some v) = (oa, v)) ∧
    (∀ v : ℚ, v ≤ arr.getD (npArgmax arr) 0 →
      arg_op .argmax arr start oa (some v) =
        (some (start + npArgmax arr), arr.getD (npArgmax arr) 0)) := by
  have hminmem : listMin arr ∈ arr := listMin_mem arr h
  have hmaxmem : listMax arr ∈ arr := listMax_mem arr h
  have hminlt : npArgmin arr < arr.length := List.indexOf_lt_length.mpr hminmem
  have hmaxlt : npArgmax arr < arr.length := List.indexOf_lt_length.mpr hmaxmem
  have hminval : arr.getD (npArgmin arr) 0 = listMin arr := by
    rw [List.getD_eq_getElem _ _ hminlt]
    exact List.getElem_indexOf hminlt
  have hmaxval : arr.getD (npArgmax arr) 0 = listMax arr := by
    rw [List.getD_eq_getElem _ _ hmaxlt]
    exact List.getElem_indexOf hmaxlt
  refine ⟨⟨hminlt, ?_, ?_⟩, ⟨hmaxlt, ?_, ?_⟩, rfl, ?_, ?_, rfl, ?_, ?_⟩
  · intro e he; rw [hminval]; exact listMin_le arr e he
  · intro j hj
    have hjl : j < arr.length := lt_trans hj hminlt
    have hne : arr.getD j 0 ≠ listMin arr := getD_ne_of_lt_indexOf arr (listMin arr) j hj
    have hle : listMin arr ≤ arr.getD j 0 := by
      refine listMin_le arr _ ?_
      rw [List.getD_eq_getElem _ _ hjl]
      exact List.getElem_mem hjl
    rw [hminval]
    exact lt_of_le_of_ne hle (fun hEq => hne hEq.symm)
  · intro e he; rw [hmaxval]; exact listMax_ge arr e he
  · intro j hj
    have hjl : j < arr.length := lt_trans hj hmaxlt
    have hne : arr.getD j 0 ≠ listMax arr := getD_ne_of_lt_indexOf arr (listMax arr) j hj
    have hle : arr.getD j 0 ≤ listMax arr := by
      refine listMax_ge arr _ ?_
      rw [List.getD_eq_getElem _ _ hjl]
      exact List.getElem_mem hjl
    rw [hmaxval]
    exact lt_of_le_of_ne hle hne
  · intro v hv
    simp only [arg_op]
    rw [if_pos hv]
  · intro v hv
    simp only [arg_op]
    rw [if_neg (not_lt.mpr hv)]
  · intro v hv
    simp only [arg_op]
    rw [if_pos hv]
  · intro v hv
    simp only [arg_op]
    rw [if_neg (not_lt.mpr hv)]

/-- Witness for C5 (amended) at the concrete block `[5]` with offset 0 and
carried argoptimum `some 7`. -/
theorem arg_op_amended_spec_witness :
    (([5] : List ℚ) ≠ []) ∧
    ((npArgmin [5] < ([5] : List ℚ).length ∧
      (∀ e ∈ ([5] : List ℚ), ([5] : List ℚ).getD (npArgmin [5]) 0 ≤ e) ∧
      (∀ j, j < npArgmin [5] →
        ([5] : List ℚ).getD (npArgmin [5]) 0 < ([5] : List ℚ).getD j 0)) ∧
    (npArgmax [5] < ([5] : List ℚ).length ∧
      (∀ e ∈ ([5] : List ℚ), e ≤ ([5] : List ℚ).getD (npArgmax [5]) 0) ∧
      (∀ j, j < npArgmax [5] →
        ([5] : List ℚ).getD j 0 < ([5] : List ℚ).getD (npArgmax [5]) 0)) ∧
    arg_op .argmin [5] 0 (some 7) none =
      (some (0 + npArgmin [5]), ([5] : List ℚ).getD (npArgmin [5]) 0) ∧
    (∀ v : ℚ, v < ([5] : List ℚ).getD (npArgmin [5]) 0 →
      arg_op .argmin [5] 0 (some 7) (some v) = (some 7, v)) ∧
    (∀ v : ℚ, ([5] : List ℚ).getD (npArgmin [5]) 0 ≤ v →
      arg_op .argmin [5] 0 (some 7) (some v) =
        (some (0 + npArgmin [5]), ([5] : List ℚ).getD (npArgmin [5]) 0)) ∧
    arg_op .argmax [5] 0 (some 7) none =
      (some (0 + npArgmax [5]), ([5] : List ℚ).getD (npArgmax [5]) 0) ∧
    (∀ v : ℚ, ([5] : List ℚ).getD (npArgmax [5]) 0 < v →
      arg_op .argmax [5] 0 (some 7) (some v) = (some 7, v)) ∧
    (∀ v : ℚ, v ≤ ([5] : List ℚ).getD (npArgmax [5]) 0 →
      arg_op .argmax [5] 0 (some 7) (some v) =
        (some (0 + npArgmax [5]), ([5] : List ℚ).getD (npArgmax [5]) 0))) :=
  ⟨by decide, arg_op_amended_spec [5] 0 (some 7) (by decide)⟩

/- ----------------------------------------------------------------- -/
/- SVD left-factor truncation (`numpy_kernel.py` lines 465-468).      -/
/- ----------------------------------------------------------------- -/

/-- The `(rows, row length)` shape of a 2-D list matrix. -/
def shape2 (m : List (List ℚ)) : ℕ × ℕ := (m.length, (m.headD []).length)

/-- The post-processing `u = u[: sigma.shape[0]]` that `KernelCls.svd`
(lines 465-468) applies to the left factor returned by
`np.linalg.svd(arr)`; Python's `u[:k]` is `List.take k`. -/
def svd_truncate_u (u : List (List ℚ)) (sigma : List ℚ) : List (List ℚ) :=
  u.take sigma.length

/-- C6 counterexample: `np.linalg.svd` (full-matrices form, as called by the
code) on the 2×1 block `[[1], [0]]` returns `u = [[1, 0], [0, 1]]`,
`sigma = [1]`, `vT = [[1]]`; the code's `u[: sigma.shape[0]]` then yields a
block of shape `(1, 2)`, not the claimed `(m, min(m, n)) = (2, 1)`. -/
theorem svd_u_shape_counterexample :
    shape2 (svd_truncate_u [[1, 0], [0, 1]] [1]) = (1, 2) ∧
    ((1, 2) : ℕ × ℕ) ≠ ((2, 1) : ℕ × ℕ) := by
  refine ⟨by decide, by decide⟩

/-- C6 (amended): for an `m × n` block with `m, n > 0`, the left factor
returned by `svd` is `u` truncated to `min(m, n)` ROWS — its shape is
`(min(m, n), m)`, which equals the claimed `(m, min(m, n))` only when
`m ≤ n`.  Stated for any full left factor `u` of the numpy-documented shape
`(m, m)` and singular-value vector of length `min(m, n)`. -/
theorem svd_u_shape_amended (u : List (List ℚ)) (sigma : List ℚ) (m n : ℕ)
    (hm : 0 < m) (hn : 0 < n) (hu : u.length = m)
    (hrows : ∀ r ∈ u, r.length = m) (hs : sigma.length = min m n) :
    shape2 (svd_truncate_u u sigma) = (min m n, m) := by
  obtain ⟨r, rs, rfl⟩ : ∃ r rs, u = r :: rs := by
    cases u with
    | nil => simp at hu; omega
    | cons r rs => exact ⟨r, rs, rfl⟩
  have hmin : 0 < min m n := by omega
  obtain ⟨k, hk⟩ : ∃ k, sigma.length = k + 1 := ⟨sigma.length - 1, by omega⟩
  simp only [shape2, svd_truncate_u, hk, List.take_succ_cons, Prod.mk.injEq]
  constructor
  · rw [List.length_cons, List.length_take]
    rw [List.length_cons] at hu
    omega
  · simp only [List.headD_cons]
    exact hrows r (List.mem_cons_self r rs)

/-- Witness for C6 (amended) at `m = 2`, `n = 1`,
`u = [[1, 0], [0, 1]]`, `sigma = [1]`. -/
theorem svd_u_shape_amended_witness :
    (0 < 2 ∧ 0 < 1 ∧ ([[1, 0], [0, 1]] : List (List ℚ)).length = 2 ∧
      (∀ r ∈ ([[1, 0], [0, 1]] : List (List ℚ)), r.length = 2) ∧
      ([1] : List ℚ).length = min 2 1) ∧
    shape2 (svd_truncate_u [[1, 0], [0, 1]] [1]) = (min 2 1, 2) :=
  ⟨⟨by decide, by decide, by decide, by decide, by decide⟩,
    svd_u_shape_amended [[1, 0], [0, 1]] [1] 2 1 (by decide) (by decide) (by decide)
      (by decide) (by decide)⟩

/- ----------------------------------------------------------------- -/
/- Registration idempotence (`systems.py` lines 57-74).               -/
/- ----------------------------------------------------------------- -/

/-- The observable state of `SerialSystem`: the two registry tables
(`_remote_functions`, `_actors`, insertion-ordered name → callable id) and
the list of warnings emitted via `warnings.warn` so far. -/
structure SerialSystem where
  remote_functions : List (String × ℕ)
  actors : List (String × ℕ)
  warnings : List String
deriving Repr, DecidableEq

/-- Membership test `name in table` on a registry table. -/
def hasKey (l : List (String × ℕ)) (k : String) : Bool :=
  l.any (fun p => p.1 == k)

/-- Model of `SerialSystem.register` (lines 57-62): if the name is already
registered the call returns immediately — no warning, no overwrite;
otherwise the function (Serial's `remote` is the identity, lines 51-52) is
stored under the name. -/
def SerialSystem.register (s : SerialSystem) (name : String) (func : ℕ) :
    SerialSystem :=
  if hasKey s.remote_functions name then s
  else { s with remote_functions := s.remote_functions ++ [(name, func)] }

/-- Model of `SerialSystem.register_actor` (lines 67-74): if the name is
already registered the call emits a `warnings.warn` and returns without
overwriting; otherwise the class is stored under the name. -/
def SerialSystem.register_actor (s : SerialSystem) (name : String) (cls : ℕ) :
    SerialSystem :=
  if hasKey s.actors name then
    { s with warnings := s.warnings ++ [name] }
  else { s with actors := s.actors ++ [(name, cls)] }

theorem hasKey_after_register (s : SerialSystem) (name : String) (f : ℕ) :
    hasKey (s.register name f).remote_functions name = true := by
  unfold SerialSystem.register
  by_cases h : hasKey s.remote_functions name
  · rw [if_pos h]; exact h
  · rw [if_neg h]
    simp [hasKey, List.any_append]

theorem hasKey_after_register_actor (s : SerialSystem) (name : String) (c : ℕ) :
    hasKey (s.register_actor name c).actors name = true := by
  unfold SerialSystem.register_actor
  by_cases h : hasKey s.actors name
  · rw [if_pos h]; exact h
  · rw [if_neg h]
    simp [hasKey, List.any_append]

/-- C7 counterexample: duplicate `register` is a silent no-op — starting from
the empty system, registering `"f"` twice leaves the warning list EMPTY,
refuting the claim that re-registration emits a warning. -/
theorem register_no_warning_counterexample :
    (SerialSystem.register
        (SerialSystem.register ⟨[], [], []⟩ "f" 1) "f" 2).warnings = [] ∧
    (SerialSystem.register
        (SerialSystem.register ⟨[], [], []⟩ "f" 1) "f" 2).remote_functions =
      [("f", 1)] := by
  refine ⟨rfl, rfl⟩

/-- C7 (amended): both registration entry points are idempotent no-ops on a
duplicate name (first registration wins, nothing is overwritten, no failure),
for every prior state and every pair of registered values; but only
`register_actor` emits a warning on the duplicate — `register` returns
silently. -/
theorem register_idempotent_spec (s : SerialSystem) (name : String)
    (f1 f2 c1 c2 : ℕ) :
    ((s.register name f1).register name f2).remote_functions =
      (s.register name f1).remote_functions ∧
    ((s.register name f1).register name f2).actors = (s.register name f1).actors ∧
    ((s.register name f1).register name f2).warnings =
      (s.register name f1).warnings ∧
    ((s.register_actor name c1).register_actor name c2).actors =
      (s.register_actor name c1).actors ∧
    ((s.register_actor name c1).register_actor name c2).remote_functions =
      (s.register_actor name c1).remote_functions ∧
    ((s.register_actor name c1).register_actor name c2).warnings =
      (s.register_actor name c1).warnings ++ [name] := by
  have h1 := hasKey_after_register s name f1
  have h2 := hasKey_after_register_actor s name c1
  constructor
  · show ((s.register name f1).register name f2).remote_functions = _
    unfold SerialSystem.register
    rw [if_pos (by exact h1)]
  constructor
  · show ((s.register name f1).register name f2).actors = _
    unfold SerialSystem.register
    rw [if_pos (by exact h1)]
  constructor
  · show ((s.register name f1).register name f2).warnings = _
    unfold SerialSystem.register
    rw [if_pos (by exact h1)]
  constructor
  · show ((s.register_actor name c1).register_actor name c2).actors = _
    unfold SerialSystem.register_actor
    rw [if_pos (by exact h2)]
  constructor
  · show ((s.register_actor name c1).register_actor name c2).remote_functions = _
    unfold SerialSystem.register_actor
    rw [if_pos (by exact h2)]
  · show ((s.register_actor name c1).register_actor name c2).warnings = _
    unfold SerialSystem.register_actor
    rw [if_pos (by exact h2)]

/- ----------------------------------------------------------------- -/
/- `RaySystem.call` device pinning (`systems.py` lines 370-377).      -/
/- ----------------------------------------------------------------- -/

/-- A top-level value in the `options` dict passed to `RaySystem.call`:
either the `"resources"` sub-dict (resource name → fractional amount) or any
other scheduling option (opaque payload). -/
inductive OptVal
  | res (m : List (String × ℚ))
  | plain (v : ℕ)
deriving Repr, DecidableEq

/-- The options dict: an insertion-ordered association list, as a Python
dict. -/
abbrev RayOptions := List (String × OptVal)

/-- Python `k in options` (membership in the TOP-LEVEL keys). -/
def optHasKey (o : RayOptions) (k : String) : Bool := o.any (fun p => p.1 == k)

/-- Python `options[k]` lookup (first entry wins). -/
def optGet (o : RayOptions) (k : String) : Option OptVal :=
  (o.find? (fun p => p.1 == k)).map Prod.snd

/-- Lookup in a `"resources"` sub-dict. -/
def resLookup (m : List (String × ℚ)) (k : String) : Option ℚ :=
  (m.find? (fun p => p.1 == k)).map Prod.snd

/-- Python dict assignment `o[k] = v`: replaces the value in place when the
key exists (preserving insertion order), otherwise appends. -/
def optSet (o : RayOptions) (k : String) (v : OptVal) : RayOptions :=
  if optHasKey o k then o.map (fun p => if p.1 == k then (k, v) else p)
  else o ++ [(k, v)]

/-- Model of the option-processing prefix of `RaySystem.call` (lines
370-377).  `device_node_key` is `self._node_key(self._device_to_node[device_id])`
when `device_id` is given and `none` when `device_id is None`.  When a device
is given: if `"resources" in options` the code runs
`assert node_key not in options` — NOTE the assert tests the TOP-LEVEL keys
of `options` (a failure is a fatal `AssertionError`, modelled as
`Except.error`); it then sets `options["resources"] = {node_key: 1.0 / 10 ** 4}`
and dispatches with the resulting options (returned as `Except.ok`). -/
def RaySystem.call_options (device_node_key : Option String)
    (options : RayOptions) : Except String RayOptions :=
  match device_node_key with
  | none => .ok options
  | some node_key =>
    if optHasKey options "resources" then
      if optHasKey options node_key then .error "AssertionError"
      else .ok (optSet options "resources" (.res [(node_key, 1 / 10 ^ 4)]))
    else .ok (optSet options "resources" (.res [(node_key, 1 / 10 ^ 4)]))

/-- C8: evaluation at the failing input.  With caller options
`{"resources": {"node:10.0.0.1": 1.0}}` — a caller resource request that
already contains the target device's unique node key — the claim demands a
fatal error before dispatch, but the assert checks the node key against the
top-level option keys (only `"resources"` there), passes, and the call
dispatches with the caller's resources silently replaced by the placement
tag. -/
theorem ray_call_collision_not_detected :
    RaySystem.call_options (some "node:10.0.0.1")
        [("resources", .res [("node:10.0.0.1", 1)])] =
      .ok [("resources", .res [("node:10.0.0.1", 1 / 10 ^ 4)])] := by
  rfl

/-- C9 counterexample: a caller resource request under another key
(`{"resources": {"custom": 1/2}}`) is NOT preserved: the dispatched options
carry `{"resources": {"node:a": 1/10^4}}` and the `"custom"` entry is gone. -/
theorem ray_call_resources_dropped_counterexample :
    RaySystem.call_options (some "node:a")
        [("resources", .res [("custom", 1 / 2)])] =
      .ok [("resources", .res [("node:a", 1 / 10 ^ 4)])] ∧
    resLookup [(("custom" : String), (1 : ℚ) / 2)] "custom" = some (1 / 2) ∧
    resLookup [(("node:a" : String), (1 : ℚ) / 10 ^ 4)] "custom" = none := by
  refine ⟨rfl, rfl, rfl⟩


theorem find?_map_replace_same (k : String) (v : OptVal) :
    ∀ o : RayOptions, optHasKey o k = true →
      (o.map (fun p => if p.1 == k then (k, v) else p)).find?
        (fun p => p.1 == k) = some (k, v) := by
  intro o ho
  induction o with
  | nil => simp [optHasKey] at ho
  | cons p rest ih =>
    rw [List.map_cons]
    by_cases hp : (p.1 == k) = true
    · rw [if_pos hp]
      simp [List.find?_cons]
    · have hp' : (p.1 == k) = false := by
        cases hpe : (p.1 == k) with
        | false => rfl
        | true => exact absurd hpe hp
      rw [if_neg hp]
      simp only [List.find?_cons, hp']
      refine ih ?_
      simp only [optHasKey, List.any_cons, hp', Bool.false_or] at ho
      exact ho

theorem find?_map_replace_ne (k : String) (v : OptVal) (key : String)
    (hne : key ≠ k) :
    ∀ o : RayOptions,
      (o.map (fun p => if p.1 == k then (k, v) else p)).find?
        (fun p => p.1 == key) = o.find? (fun p => p.1 == key) := by
  intro o
  induction o with
  | nil => rfl
  | cons p rest ih =>
    rw [List.map_cons]
    have hkk : (k == key) = false := by
      cases hke : (k == key) with
      | false => rfl
      | true => exact absurd (eq_of_beq hke).symm hne
    by_cases hp : (p.1 == k) = true
    · have hp' : p.1 = k := eq_of_beq hp
      have hpk : (p.1 == key) = false := by rw [hp']; exact hkk
      rw [if_pos hp]
      simp only [List.find?_cons, hkk, hpk]
      exact ih
    · rw [if_neg hp]
      cases hq : (p.1 == key) with
      | true => simp only [List.find?_cons, hq]
      | false =>
        simp only [List.find?_cons, hq]
        exact ih

theorem find?_none_of_not_hasKey (o : RayOptions) (k : String)
    (h : optHasKey o k = false) : o.find? (fun p => p.1 == k) = none := by
  rw [List.find?_eq_none]
  intro p hp hbeq
  have h2 : optHasKey o k = true := List.any_of_mem hp hbeq
  rw [h2] at h
  cases h

theorem optGet_optSet_same (o : RayOptions) (k : String) (v : OptVal) :
    optGet (optSet o k v) k = some v := by
  unfold optSet optGet
  by_cases h : optHasKey o k
  · rw [if_pos h, find?_map_replace_same k v o h]
    rfl
  · rw [if_neg h, List.find?_append,
      find?_none_of_not_hasKey o k (by simpa using h)]
    simp

theorem optGet_optSet_ne (o : RayOptions) (k : String) (v : OptVal)
    (key : String) (h : key ≠ k) :
    optGet (optSet o k v) key = optGet o key := by
  unfold optSet optGet
  by_cases hk : optHasKey o k
  · rw [if_pos hk, find?_map_replace_ne k v key h o]
  · rw [if_neg hk, List.find?_append]
    have hsing : ([(k, v)].find? fun p => p.1 == key) = none := by
      have hx : (k == key) = false := by
        cases hke : (k == key) with
        | false => rfl
        | true => exact absurd (eq_of_beq hke).symm h
      simp [hx]
    rw [hsing, Option.or_none]

/-- C9 (amended): when a device is given and the (top-level) collision assert
passes, the dispatched options are the caller's options with the
`"resources"` entry SET to exactly the singleton placement tag
`{node_key: 1.0 / 10 ** 4}` — any pre-existing `"resources"` value,
including resource requests under other keys, is replaced — while every
caller entry under any other top-level key is preserved. -/
theorem ray_call_options_amended (options : RayOptions) (k : String)
    (h : optHasKey options "resources" = false ∨ optHasKey options k = false) :
    RaySystem.call_options (some k) options =
      .ok (optSet options "resources" (.res [(k, 1 / 10 ^ 4)])) ∧
    optGet (optSet options "resources" (.res [(k, 1 / 10 ^ 4)])) "resources" =
      some (.res [(k, 1 / 10 ^ 4)]) ∧
    (∀ key : String, key ≠ "resources" →
      optGet (optSet options "resources" (.res [(k, 1 / 10 ^ 4)])) key =
        optGet options key) := by
  refine ⟨?_, optGet_optSet_same _ _ _, fun key hkey => optGet_optSet_ne _ _ _ _ hkey⟩
  have hreduce : RaySystem.call_options (some k) options =
      if optHasKey options "resources" = true then
        if optHasKey options k = true then Except.error "AssertionError"
        else Except.ok (optSet options "resources" (OptVal.res [(k, 1 / 10 ^ 4)]))
      else Except.ok (optSet options "resources" (OptVal.res [(k, 1 / 10 ^ 4)])) := rfl
  rw [hreduce]
  rcases h with h | h
  · rw [if_neg (by simp [h])]
  · by_cases hr : optHasKey options "resources" = true
    · rw [if_pos hr, if_neg (by simp [h])]
    · rw [if_neg hr]

/-- Witness for C9 (amended) at caller options `{"num_returns": 2}` and
device resource key `"node:a"`. -/
theorem ray_call_options_amended_witness :
    (optHasKey [(("num_returns" : String), OptVal.plain 2)] "resources" = false ∨
      optHasKey [(("num_returns" : String), OptVal.plain 2)] "node:a" = false) ∧
    (RaySystem.call_options (some "node:a") [("num_returns", OptVal.plain 2)] =
      .ok (optSet [("num_returns", OptVal.plain 2)] "resources"
        (.res [("node:a", 1 / 10 ^ 4)])) ∧
    optGet (optSet [("num_returns", OptVal.plain 2)] "resources"
        (.res [("node:a", 1 / 10 ^ 4)])) "resources" =
      some (.res [("node:a", 1 / 10 ^ 4)]) ∧
    (∀ key : String, key ≠ "resources" →
      optGet (optSet [("num_returns", OptVal.plain 2)] "resources"
          (.res [("node:a", 1 / 10 ^ 4)])) key =
        optGet [("num_returns", OptVal.plain 2)] key)) :=
  ⟨Or.inl (by decide),
    ray_call_options_amended [("num_returns", OptVal.plain 2)] "node:a"
      (Or.inl (by decide))⟩

/-- C10: with `device_id = None`, `RaySystem.call` injects no placement tag:
the options are forwarded to the dispatch unchanged (in particular no
`"resources"` entry is added or modified) and no error is raised. -/
theorem ray_call_none_passthrough (options : RayOptions) :
    RaySystem.call_options none options = .ok options :=
  rfl
